import Mathlib

/-!
Shallow embedding of the Memory-Driven Invoice Intelligence System
(TypeScript sources: `src/memory/manager.ts`, `src/memory/database.ts`,
`src/intelligence/processor.ts`, `src/types/index.ts`).

Modelling conventions, fixed once for the whole development:
* JavaScript numbers are modelled as rationals (`ℚ`); the operations the
  claims touch are comparisons, `min`/`max`, `+`, `-`, `*`, `/` and powers
  of 0.95, none of which the claims exercise near float-precision limits.
* ISO timestamps are modelled as integer day numbers, because the only
  arithmetic the code performs on them is "days since epoch" differences
  (`applyDecayToUnusedMemories`).  `lastUsedAt = ''` (falsy) is `none`.
* The SQLite database is modelled as a list of memory records (`Store`);
  `INSERT OR REPLACE` keyed on the primary key `id` is an upsert,
  `UPDATE ... WHERE id = ?` is a map over matching entries, the
  `WHERE`/`ORDER BY`/`LIMIT` clauses of `queryMemories` are filter,
  stable sort by (confidence desc, usage desc) and take.
* `JSON.stringify`-equality and `===` on primitives are structural
  equality of `Value`; `===` on reference types (arrays) is also modelled
  structurally, which the claims never distinguish.
* The general-purpose regular-expression test of
  `InvoiceProcessor.matchesPattern` (an arbitrary user-supplied pattern
  compiled with `new RegExp`) is not shallowly embeddable; it is threaded
  through the processor as an explicit oracle parameter `rt` (pattern →
  stringified value → matches?).  The fixed, literal regexes of the
  processor (`Leistungsdatum: date`, `PO token`, currency cues, the VAT
  phrasing) are embedded concretely, character by character.
* Wall-clock sampling (`new Date().toISOString()`) for audit timestamps is
  a single external parameter `ts`; the claims never inspect timestamps.
-/

/-- A line item of an invoice (`LineItem` in `types/index.ts`). -/
structure LineItem where
  description : String
  quantity : Option ℚ := none
  unitPrice : Option ℚ := none
  totalPrice : Option ℚ := none
  sku : Option String := none
  vatRate : Option ℚ := none
deriving DecidableEq, Repr

/-- A JavaScript value as it appears in `extractedData` fields,
correction values and vendor-action values.  (TypeScript type `any`;
the shapes actually used by the code are strings, numbers, booleans,
null and `LineItem[]`.) -/
inductive Value where
  | vNull : Value
  | vBool : Bool → Value
  | vNum : ℚ → Value
  | vStr : String → Value
  | vItems : List LineItem → Value
deriving DecidableEq, Repr

/-- JavaScript truthiness of a `Value` (arrays are always truthy). -/
def Value.truthy : Value → Bool
  | .vNull => false
  | .vBool b => b
  | .vNum q => q ≠ 0
  | .vStr s => s ≠ ""
  | .vItems _ => true

/-- The open-ended `extractedData` object: an insertion-ordered map from
field names to values.  Absent keys model JavaScript `undefined`. -/
abbrev ExtractedData := List (String × Value)

/-- Property read `data[f]` (`undefined` ↦ `none`). -/
def lookupField : ExtractedData → String → Option Value
  | [], _ => none
  | (g, v) :: d, f => if g = f then some v else lookupField d f

/-- Property write `data[f] = v`: overwrite in place if the key exists,
else append (JavaScript objects keep insertion order). -/
def setField : ExtractedData → String → Value → ExtractedData
  | [], f, v => [(f, v)]
  | (g, w) :: d, f, v => if g = f then (g, v) :: d else (g, w) :: setField d f v

/-- Truthiness of `data[f]` (`undefined` is falsy). -/
def truthyField (d : ExtractedData) (f : String) : Bool :=
  (lookupField d f).elim false Value.truthy

/-- An invoice (`Invoice` in `types/index.ts`).  The three metadata
subfields are inlined. -/
structure Invoice where
  id : String
  vendor : String
  rawText : String
  extractedData : ExtractedData
  metaSource : String := ""
  metaExtractedAt : String := ""
  metaProcessingId : String := ""
deriving DecidableEq, Repr

/-! ### Character-level embedding of the fixed regexes and `includes` -/

/-- `pat` occurs as a contiguous sublist of `cs`
(`String.prototype.includes` on the underlying characters). -/
def charsContain (cs pat : List Char) : Bool :=
  match cs with
  | [] => pat.isEmpty
  | _ :: rest => pat.isPrefixOf cs || charsContain rest pat

/-- `s.includes(pat)`. -/
def strContains (s pat : String) : Bool :=
  charsContain s.data pat.data

/-- Case-insensitive containment (used for the `i`-flagged literal
regex alternatives such as `/EUR|euro/i`). -/
def strContainsCI (s pat : String) : Bool :=
  charsContain (s.data.map Char.toLower) (pat.data.map Char.toLower)

/-- JavaScript `\s` on the characters the invoices use. -/
def wsChar (c : Char) : Bool :=
  c = ' ' || c = '\t' || c = '\n' || c = '\r' || c = '\x0b' || c = '\x0c'

/-- Case-insensitive prefix test used by the phrase matchers. -/
def ciPrefix : List Char → List Char → Bool
  | [], _ => true
  | _ :: _, [] => false
  | p :: ps, c :: cs => p.toLower = c.toLower && ciPrefix ps cs

/-- Drop the part matched by `ciPrefix` (call only when it matched). -/
def dropPrefixLen : List Char → List Char → List Char
  | [], cs => cs
  | _ :: ps, [] => dropPrefixLen ps []
  | _ :: ps, _ :: cs => dropPrefixLen ps cs

/-- Match `parts` in order starting here, any two consecutive parts
separated by `\s*` (the shape of the literal phrase regexes). -/
def partsHere : List (List Char) → List Char → Bool
  | [], _ => true
  | p :: ps, cs =>
    if ciPrefix p cs then partsHere ps ((dropPrefixLen p cs).dropWhile wsChar)
    else false

/-- Scan for a position where `partsHere` succeeds (regex search). -/
def partsSearch (parts : List (List Char)) : List Char → Bool
  | [] => partsHere parts []
  | c :: rest => partsHere parts (c :: rest) || partsSearch parts rest

/-- Case-insensitive phrase search: the parts in order, joined by `\s*`. -/
def strPhrase (s : String) (parts : List String) : Bool :=
  partsSearch (parts.map String.data) s.data

/-- The date shape `\d{4}-\d{2}-\d{2}` at the head of `cs`; returns the
ten matched characters. -/
def matchIsoDate (cs : List Char) : Option String :=
  match cs with
  | y1 :: y2 :: y3 :: y4 :: h1 :: m1 :: m2 :: h2 :: d1 :: d2 :: _ =>
    if y1.isDigit && y2.isDigit && y3.isDigit && y4.isDigit && h1 = '-' &&
       m1.isDigit && m2.isDigit && h2 = '-' && d1.isDigit && d2.isDigit then
      some (String.mk [y1, y2, y3, y4, h1, m1, m2, h2, d1, d2])
    else none
  | _ => none

/-- First match of `/Leistungsdatum:\s*(\d{4}-\d{2}-\d{2})/`, returning
the captured date (`invoice.rawText.match(...)` in `applyVendorMemory`). -/
def findLeistungsdatum : List Char → Option String
  | [] => none
  | c :: rest =>
    (if ciPrefixExact "Leistungsdatum:".data (c :: rest) then
      matchIsoDate ((dropPrefixLen "Leistungsdatum:".data (c :: rest)).dropWhile wsChar)
     else none).orElse (fun _ => findLeistungsdatum rest)
where
  /-- case-sensitive prefix (the label regex has no `i` flag) -/
  ciPrefixExact : List Char → List Char → Bool
  | [], _ => true
  | _ :: _, [] => false
  | p :: ps, c :: cs => p = c && ciPrefixExact ps cs

/-- `\w` of JavaScript: `[A-Za-z0-9_]`. -/
def wordChar (c : Char) : Bool :=
  c.isAlphanum || c = '_'

/-- First match of `/PO[:\s]*(\w+)/i` in a line-item description,
returning the captured token (`performInference`, `po_from_items`). -/
def findPO : List Char → Option String
  | [] => none
  | c :: rest =>
    (match rest with
     | o :: tail =>
       if (c = 'P' || c = 'p') && (o = 'O' || o = 'o') then
         let afterSep := tail.dropWhile (fun ch => ch = ':' || wsChar ch)
         let tok := afterSep.takeWhile wordChar
         if tok.isEmpty then none else some (String.mk tok)
       else none
     | [] => none).orElse (fun _ => findPO rest)

/-! ### The memory data model (`types/index.ts`) -/

/-- Discriminant of the `Memory` tagged union. -/
inductive MemType where
  | vendor
  | correction
  | resolution
deriving DecidableEq, Repr

/-- `action.type` of a `VendorMemory`. -/
inductive ActionType where
  | field_mapping
  | computation
  | inference
deriving DecidableEq, Repr

/-- Rendering used in correction reasoning strings (template literal
interpolation of `action.type`). -/
def ActionType.str : ActionType → String
  | .field_mapping => "field_mapping"
  | .computation => "computation"
  | .inference => "inference"

/-- The `action` record of a `VendorMemory`. -/
structure VendorAction where
  type : ActionType
  sourceField : Option String := none
  targetField : String
  value : Option Value := none
  strategy : Option String := none
deriving DecidableEq, Repr

/-- The per-variant payload of a memory.
`correction` carries fieldName, originalPattern, correctedValue,
correctionReason, approvalCount, rejectionCount;
`resolution` carries scenario, outcome, optional humanFeedback,
systemAction (outcome is one of the strings approved/rejected/escalated). -/
inductive MemKind where
  | vendor (triggerSignal : String) (action : VendorAction) (pattern : String)
  | correction (fieldName : String) (originalPattern : String)
      (correctedValue : Value) (correctionReason : String)
      (approvalCount : Nat) (rejectionCount : Nat)
  | resolution (scenario : String) (outcome : String)
      (humanFeedback : Option String) (systemAction : String)
deriving DecidableEq, Repr

/-- A persisted memory record (`BaseMemory` plus variant payload).
Timestamps are day numbers; `lastUsedAtDay = none` is the empty string
the create functions store. -/
structure Memory where
  id : String
  kind : MemKind
  vendor : String
  confidence : ℚ
  usageCount : Nat
  createdAtDay : ℤ
  lastUsedAtDay : Option ℤ
  lastUpdatedAtDay : ℤ
  isActive : Bool
deriving DecidableEq, Repr

/-- The discriminant of a memory. -/
def Memory.type (m : Memory) : MemType :=
  match m.kind with
  | .vendor .. => .vendor
  | .correction .. => .correction
  | .resolution .. => .resolution

/-- A query filter (`MemoryQuery`); `none` models an absent property. -/
structure MemoryQuery where
  vendor : Option String := none
  fieldName : Option String := none
  pattern : Option String := none
  type : Option MemType := none
  minConfidence : Option ℚ := none
  limit : Option Nat := none
deriving Repr

/-! ### The memory database (`memory/database.ts`) -/

/-- The `memories` table (joined with its per-variant table) as a list of
records in rowid (insertion) order. -/
abbrev Store := List Memory

/-- `saveMemory`: `INSERT OR REPLACE` keyed on the primary key `id` —
replace every row with that id, or append a fresh row. -/
def saveMemory (s : Store) (m : Memory) : Store :=
  if s.any (fun x => x.id = m.id) then
    s.map (fun x => if x.id = m.id then m else x)
  else s ++ [m]

/-- `updateMemoryConfidence`: `UPDATE memories SET confidence = ?,
last_updated_at = ? WHERE id = ?`. -/
def updateMemoryConfidence (s : Store) (memoryId : String) (newConfidence : ℚ)
    (now : ℤ) : Store :=
  s.map (fun x =>
    if x.id = memoryId then
      { x with confidence := newConfidence, lastUpdatedAtDay := now }
    else x)

/-- `updateMemoryUsage`: `UPDATE memories SET usage_count = usage_count + 1,
last_used_at = ?, last_updated_at = ? WHERE id = ?`. -/
def updateMemoryUsage (s : Store) (memoryId : String) (now : ℤ) : Store :=
  s.map (fun x =>
    if x.id = memoryId then
      { x with usageCount := x.usageCount + 1, lastUsedAtDay := some now,
               lastUpdatedAtDay := now }
    else x)

/-- The `WHERE` clause of `queryMemories`: active rows matching every
supplied filter.  A JavaScript-falsy filter value (empty string for the
text filters, 0 for `minConfidence`) leaves its clause off.  The
`fieldName` and `pattern` clauses reference LEFT-JOINed columns that are
NULL for other variants, so they exclude those variants. -/
def passesQuery (q : MemoryQuery) (m : Memory) : Bool :=
  m.isActive &&
  (match q.vendor with
   | some v => v = "" || m.vendor = v
   | none => true) &&
  (match q.type with
   | some t => m.type = t
   | none => true) &&
  (match q.fieldName with
   | some fn => fn = "" ||
     (match m.kind with
      | .correction fieldName _ _ _ _ _ => fieldName = fn
      | _ => false)
   | none => true) &&
  (match q.pattern with
   | some p => p = "" ||
     (match m.kind with
      | .vendor _ _ pattern => strContains pattern p
      | .correction _ originalPattern _ _ _ _ => strContains originalPattern p
      | _ => false)
   | none => true) &&
  (match q.minConfidence with
   | some mc => mc = 0 || decide (mc ≤ m.confidence)
   | none => true)

/-- `ORDER BY m.confidence DESC, m.usage_count DESC` (ties keep rowid
order, modelled by sort stability). -/
def memOrd (a b : Memory) : Prop :=
  b.confidence < a.confidence ∨
    (a.confidence = b.confidence ∧ b.usageCount ≤ a.usageCount)

instance : DecidableRel memOrd := fun a b => by
  unfold memOrd; infer_instance

/-- `queryMemories`: filter, order, then `LIMIT` (absent or 0 = falsy =
no limit clause). -/
def queryMemories (s : Store) (q : MemoryQuery) : List Memory :=
  let sorted := List.insertionSort memOrd (s.filter (passesQuery q))
  match q.limit with
  | some n => if n = 0 then sorted else sorted.take n
  | none => sorted

/-! ### The memory manager (`memory/manager.ts`)

Constants: `CONFIDENCE_DECAY_RATE = 0.95`, `MAX_CONFIDENCE_INCREASE = 0.1`,
`MIN_CONFIDENCE = 0.1`, `MAX_CONFIDENCE = 0.95`. -/

namespace MemoryManager

/-- `createVendorMemory` (the generated uuid and the wall clock are the
external parameters `newId` and `now`).  Returns the updated store and
the created record.  Note the single-sided clamp
`Math.min(initialConfidence, MAX_CONFIDENCE)`. -/
def createVendorMemory (s : Store) (newId : String) (now : ℤ) (vendor : String)
    (triggerSignal : String) (action : VendorAction) (pattern : String)
    (initialConfidence : ℚ := 1/2) : Store × Memory :=
  let memory : Memory :=
    { id := newId, kind := .vendor triggerSignal action pattern, vendor := vendor,
      confidence := min initialConfidence (19/20), usageCount := 0,
      createdAtDay := now, lastUsedAtDay := none, lastUpdatedAtDay := now,
      isActive := true }
  (saveMemory s memory, memory)

/-- `createCorrectionMemory`. -/
def createCorrectionMemory (s : Store) (newId : String) (now : ℤ)
    (vendor fieldName originalPattern : String) (correctedValue : Value)
    (correctionReason : String) (initialConfidence : ℚ := 2/5) :
    Store × Memory :=
  let memory : Memory :=
    { id := newId,
      kind := .correction fieldName originalPattern correctedValue
        correctionReason 0 0,
      vendor := vendor, confidence := min initialConfidence (19/20),
      usageCount := 0, createdAtDay := now, lastUsedAtDay := none,
      lastUpdatedAtDay := now, isActive := true }
  (saveMemory s memory, memory)

/-- `createResolutionMemory`. -/
def createResolutionMemory (s : Store) (newId : String) (now : ℤ)
    (vendor scenario outcome : String) (systemAction : String)
    (humanFeedback : Option String := none) (initialConfidence : ℚ := 3/5) :
    Store × Memory :=
  let memory : Memory :=
    { id := newId, kind := .resolution scenario outcome humanFeedback systemAction,
      vendor := vendor, confidence := min initialConfidence (19/20),
      usageCount := 0, createdAtDay := now, lastUsedAtDay := none,
      lastUpdatedAtDay := now, isActive := true }
  (saveMemory s memory, memory)

/-- Loop body of `applyDecayToUnusedMemories`: the decay write one
fetched memory triggers. -/
def decayWrite (now : ℤ) (st : Store) (m : Memory) : Store :=
  let daysSinceLastUse := now - (m.lastUsedAtDay.getD m.createdAtDay)
  if 7 < daysSinceLastUse then
    let decayFactor := (19/20 : ℚ) ^ (daysSinceLastUse - 7).toNat
    let newConfidence := max (m.confidence * decayFactor) (1/10)
    if newConfidence ≠ m.confidence then
      updateMemoryConfidence st m.id newConfidence now
    else st
  else st

/-- `applyDecayToUnusedMemories`: for each fetched memory unused for more
than 7 days, persist `confidence * 0.95^(days-7)` floored at 0.1 to the
store.  The fetched records themselves are not modified. -/
def applyDecayToUnusedMemories (s : Store) (now : ℤ) (memories : List Memory) :
    Store :=
  memories.foldl (decayWrite now) s

/-- The full query `recallMemories` builds: caller-supplied filters over
the defaults vendor = invoice's vendor, minConfidence 0.3, limit 50. -/
def fullQueryOf (invoice : Invoice) (query : MemoryQuery) : MemoryQuery :=
  { vendor := some (query.vendor.getD invoice.vendor),
    fieldName := query.fieldName,
    pattern := query.pattern,
    type := query.type,
    minConfidence := some (query.minConfidence.getD (3/10)),
    limit := some (query.limit.getD 50) }

/-- `recallMemories`: fetch, persist decay, then filter the *fetched*
records (whose confidence fields the decay pass did not touch) against
`fullQuery.minConfidence || 0.3`. -/
def recallMemories (s : Store) (now : ℤ) (invoice : Invoice)
    (query : MemoryQuery := {}) : Store × List Memory :=
  let fullQuery := fullQueryOf invoice query
  let memories := queryMemories s fullQuery
  let s1 := applyDecayToUnusedMemories s now memories
  let minC := match fullQuery.minConfidence with
    | some v => if v = 0 then 3/10 else v
    | none => (3/10 : ℚ)
  (s1, memories.filter (fun m => decide (minC ≤ m.confidence)))

/-- `reinforceMemory`: scan the active set for the id, persist the capped
increase and the usage bump, then — for correction memories — save the
stale in-memory snapshot with `approvalCount + 1`. -/
def reinforceMemory (s : Store) (now : ℤ) (memoryId : String)
    (strength : ℚ := 1/10) : Store :=
  let memories := queryMemories s {}
  match memories.find? (fun m => m.id = memoryId) with
  | none => s
  | some memory =>
    let increase := min strength (1/10)
    let newConfidence := min (memory.confidence + increase) (19/20)
    let s1 := updateMemoryConfidence s memoryId newConfidence now
    let s2 := updateMemoryUsage s1 memoryId now
    match memory.kind with
    | .correction fieldName originalPattern correctedValue correctionReason
        approvalCount rejectionCount =>
      saveMemory s2
        { memory with
          kind := .correction fieldName originalPattern correctedValue
            correctionReason (approvalCount + 1) rejectionCount }
    | _ => s2

/-- `weakenMemory`: persist the floored decrease; for correction memories
save the snapshot with `rejectionCount + 1`; deactivate when the floor is
reached. -/
def weakenMemory (s : Store) (now : ℤ) (memoryId : String)
    (strength : ℚ := 1/5) : Store :=
  let memories := queryMemories s {}
  match memories.find? (fun m => m.id = memoryId) with
  | none => s
  | some memory =>
    let decrease := min strength (3/10)
    let newConfidence := max (memory.confidence - decrease) (1/10)
    let s1 := updateMemoryConfidence s memoryId newConfidence now
    let memory1 :=
      match memory.kind with
      | .correction fieldName originalPattern correctedValue correctionReason
          approvalCount rejectionCount =>
        { memory with
          kind := .correction fieldName originalPattern correctedValue
            correctionReason approvalCount (rejectionCount + 1) }
      | _ => memory
    let s2 :=
      match memory.kind with
      | .correction _ _ _ _ _ _ => saveMemory s1 memory1
      | _ => s1
    if newConfidence ≤ 1/10 then
      saveMemory s2 { memory1 with isActive := false }
    else s2

end MemoryManager

/-! ### The invoice processor (`intelligence/processor.ts`) -/

/-- A proposed field change (`Correction`). -/
structure Correction where
  field : String
  originalValue : Option Value
  proposedValue : Value
  confidence : ℚ
  memorySource : String
  reasoning : String
deriving DecidableEq, Repr

/-- A memory side-effect record (`MemoryUpdate`). -/
structure MemoryUpdate where
  type : String
  memoryId : Option String
  details : String
deriving DecidableEq, Repr

/-- One audit-trail record (`AuditEntry`). -/
structure AuditEntry where
  step : String
  timestamp : String
  details : String
  confidence : Option ℚ := none
  memoryReferences : Option (List String) := none
deriving DecidableEq, Repr

/-- The full pipeline output (`ProcessingResult`). -/
structure ProcessingResult where
  normalizedInvoice : Invoice
  proposedCorrections : List Correction
  requiresHumanReview : Bool
  reasoning : String
  confidenceScore : ℚ
  memoryUpdates : List MemoryUpdate
  auditTrail : List AuditEntry
deriving DecidableEq, Repr

/-- The regular-expression oracle: `rt pattern str` decides
`new RegExp(pattern, 'i').test(str)` with the invalid-regex substring
fallback folded in (see the header notes). -/
abbrev RegexTest := String → String → Bool

namespace InvoiceProcessor

/-- The fixed `DecisionThresholds` of the processor. -/
def autoAccept : ℚ := 17/20
/-- Threshold `autoCorrect = 0.65`. -/
def autoCorrect : ℚ := 13/20
/-- Threshold `escalate = 0.4`. -/
def escalate : ℚ := 2/5
/-- Threshold `memoryApplication = 0.5`. -/
def memoryApplication : ℚ := 1/2

/-- `String(value || '')` as fed to the pattern oracle by
`matchesPattern` (`undefined` and other falsy values stringify through
`''`). -/
def valueToMatchStr : Option Value → String
  | none => ""
  | some v =>
    if v.truthy then
      match v with
      | .vStr s => s
      | .vNum q => toString q
      | .vBool _ => "true"
      | .vNull => ""
      | .vItems _ => "[object Object]"
    else ""

/-- `matchesPattern`: the sentinel always matches; otherwise defer to the
regex oracle on the stringified value. -/
def matchesPattern (rt : RegexTest) (value : Option Value) (pattern : String) :
    Bool :=
  if pattern = "human_correction" then true
  else rt pattern (valueToMatchStr value)

/-- `performInference` (vendor-memory `inference` actions). -/
def performInference (invoice : Invoice) (action : VendorAction) :
    Option Value :=
  match action.strategy with
  | some "po_from_items" =>
    if !truthyField invoice.extractedData "poNumber" &&
       truthyField invoice.extractedData "lineItems" then
      match lookupField invoice.extractedData "lineItems" with
      | some (.vItems items) =>
        (items.findSome? (fun item => findPO item.description.data)).map .vStr
      | _ => none
    else none
  | some "currency_from_text" =>
    if invoice.rawText.contains '€' || strContainsCI invoice.rawText "eur" then
      some (.vStr "EUR")
    else if invoice.rawText.contains '$' || strContainsCI invoice.rawText "usd" ||
            strContainsCI invoice.rawText "dollar" then
      some (.vStr "USD")
    else if invoice.rawText.contains '£' || strContainsCI invoice.rawText "gbp" ||
            strContainsCI invoice.rawText "pound" then
      some (.vStr "GBP")
    else none
  | _ => none

/-- JavaScript `Math.round` (half away from zero upward: `⌊x + 1/2⌋`). -/
def jsRound (q : ℚ) : ℤ := ⌊q + 1/2⌋

/-- `performComputation` (vendor-memory `computation` actions other than
`vat_included_detection`).  Arithmetic is modelled on numeric values only;
a non-numeric `amount` would produce NaN in JavaScript and is outside the
numeric model. -/
def performComputation (invoice : Invoice) (action : VendorAction) :
    Option Value :=
  match action.strategy with
  | some "vat_included_adjustment" =>
    if truthyField invoice.extractedData "vatIncluded" &&
       truthyField invoice.extractedData "amount" then
      match lookupField invoice.extractedData "amount" with
      | some (.vNum amount) =>
        let vatRate :=
          match lookupField invoice.extractedData "vatAmount" with
          | some (.vNum r) => if r = 0 then 19/100 else r
          | _ => (19/100 : ℚ)
        let netAmount := amount / (1 + vatRate)
        some (.vNum ((jsRound (netAmount * 100) : ℚ) / 100))
      | _ => none
    else none
  | some "total_from_items" =>
    if truthyField invoice.extractedData "lineItems" then
      match lookupField invoice.extractedData "lineItems" with
      | some (.vItems items) =>
        some (.vNum (items.foldl (fun sum item => sum + item.totalPrice.getD 0) 0))
      | _ => none
    else none
  | _ => none

/-- `applyVendorMemory`: trigger check, action dispatch, then the
identical-value discard `proposedValue === undefined || proposedValue ===
current`. -/
def applyVendorMemory (invoice : Invoice) (m : Memory) (triggerSignal : String)
    (action : VendorAction) : Option Correction :=
  let triggerFound := strContains invoice.rawText triggerSignal ||
    triggerSignal = invoice.vendor
  if !triggerFound then none
  else
    let proposedValue : Option Value :=
      match action.type with
      | .field_mapping =>
        if action.strategy = some "extract_from_text" &&
           triggerSignal = "Leistungsdatum" then
          (findLeistungsdatum invoice.rawText.data).map .vStr
        else if (match action.sourceField with
                 | some sf => sf ≠ "" && truthyField invoice.extractedData sf
                 | none => false) then
          lookupField invoice.extractedData (action.sourceField.getD "")
        else match action.value with
          | some v => some v
          | none => none
      | .inference => performInference invoice action
      | .computation =>
        if action.strategy = some "vat_included_detection" then
          if strPhrase invoice.rawText ["MwSt.", "inkl."] ||
             strPhrase invoice.rawText ["Prices", "incl.", "VAT"] then
            some (.vBool true)
          else none
        else performComputation invoice action
    match proposedValue with
    | none => none
    | some v =>
      if lookupField invoice.extractedData action.targetField = some v then none
      else some
        { field := action.targetField,
          originalValue := lookupField invoice.extractedData action.targetField,
          proposedValue := v,
          confidence := m.confidence,
          memorySource := m.id,
          reasoning := "Vendor memory: " ++ triggerSignal ++ " → " ++
            action.targetField ++ " (" ++ action.type.str ++ ")" }

/-- `applyCorrectionMemory`: the sentinel or a pattern match on the
current value proposes `correctedValue` — with no identical-value
discard. -/
def applyCorrectionMemory (rt : RegexTest) (invoice : Invoice) (m : Memory)
    (fieldName originalPattern : String) (correctedValue : Value)
    (correctionReason : String) (approvalCount : Nat) : Option Correction :=
  let currentValue := lookupField invoice.extractedData fieldName
  if originalPattern = "human_correction" ||
     matchesPattern rt currentValue originalPattern then
    some
      { field := fieldName,
        originalValue := currentValue,
        proposedValue := correctedValue,
        confidence := m.confidence,
        memorySource := m.id,
        reasoning := "Correction memory: " ++ correctionReason ++
          " (approved " ++ toString approvalCount ++ "x)" }
  else none

/-- `applyMemory`: dispatch on the variant (resolution memories never
produce a correction). -/
def applyMemory (rt : RegexTest) (invoice : Invoice) (m : Memory) :
    Option Correction :=
  match m.kind with
  | .vendor triggerSignal action _ =>
    applyVendorMemory invoice m triggerSignal action
  | .correction fieldName originalPattern correctedValue correctionReason
      approvalCount _ =>
    applyCorrectionMemory rt invoice m fieldName originalPattern correctedValue
      correctionReason approvalCount
  | .resolution .. => none

/-- First-occurrence deduplication with seen-accumulator. -/
def dedupAux {α : Type} [DecidableEq α] : List α → List α → List α
  | [], _ => []
  | x :: xs, seen =>
    if x ∈ seen then dedupAux xs seen else x :: dedupAux xs (x :: seen)

/-- First-occurrence deduplication (JavaScript `Map` key order /
`Set` contents). -/
def dedupKeepFirst {α : Type} [DecidableEq α] (l : List α) : List α :=
  dedupAux l []

/-- `detectMemoryConflicts`: group the corrections by field; report each
field that received more than one correction with more than one distinct
proposed value (`Set` of `JSON.stringify`ed values). -/
def detectMemoryConflicts (corrections : List Correction) : List String :=
  let fields := dedupKeepFirst (corrections.map (fun c => c.field))
  (fields.filter (fun f =>
    let fieldCorrs := corrections.filter (fun c => c.field = f)
    decide (1 < fieldCorrs.length) &&
      decide (1 < (dedupKeepFirst (fieldCorrs.map (fun c => c.proposedValue))).length))).map
    (fun f => "Conflicting corrections for " ++ f)

/-- Loop state of the `applyMemories` for-loop. -/
structure ApplyState where
  store : Store
  corrections : List Correction
  updates : List MemoryUpdate
  totalConfidence : ℚ
  appliedCount : Nat

/-- One iteration of the `applyMemories` loop: skip low-confidence
memories; on a produced correction record it, reinforce the memory by
0.02, log the update and multiply the running confidence. -/
def applyStep (rt : RegexTest) (invoice : Invoice) (now : ℤ) (st : ApplyState)
    (m : Memory) : ApplyState :=
  if m.confidence < memoryApplication then st
  else
    match applyMemory rt invoice m with
    | none => st
    | some correction =>
      { store := MemoryManager.reinforceMemory st.store now m.id (1/50),
        corrections := st.corrections ++ [correction],
        updates := st.updates ++
          [{ type := "reinforce", memoryId := some m.id,
             details := "Applied memory for " ++ correction.field ++ " correction" }],
        totalConfidence := st.totalConfidence * m.confidence,
        appliedCount := st.appliedCount + 1 }

/-- Result record of `applyMemories` (plus the threaded store). -/
structure ApplyOutcome where
  store : Store
  corrections : List Correction
  confidence : ℚ
  updates : List MemoryUpdate
deriving Repr

/-- `applyMemories`: run the loop, apply the single conflict penalty,
default to 0.9 when nothing was applied. -/
def applyMemories (rt : RegexTest) (s : Store) (now : ℤ) (invoice : Invoice)
    (memories : List Memory) : ApplyOutcome :=
  let st := memories.foldl (applyStep rt invoice now)
    { store := s, corrections := [], updates := [], totalConfidence := 1,
      appliedCount := 0 }
  let conflicts := detectMemoryConflicts st.corrections
  let total :=
    if 0 < conflicts.length then st.totalConfidence * (7/10)
    else st.totalConfidence
  { store := st.store, corrections := st.corrections,
    confidence := if 0 < st.appliedCount then total else 9/10,
    updates := st.updates }

/-- `detectFieldIssues`: the fixed heuristics choosing which fields get a
correction-memory recall. -/
def detectFieldIssues (invoice : Invoice) : List String :=
  let data := invoice.extractedData
  (if !truthyField data "serviceDate" && truthyField data "date" then
    ["serviceDate"] else []) ++
  (if !truthyField data "currency" then ["currency"] else []) ++
  (if !truthyField data "poNumber" then ["poNumber"] else []) ++
  (if lookupField data "vatIncluded" = none then ["vatIncluded"] else []) ++
  (if !truthyField data "vatAmount" && truthyField data "amount" then
    ["vatAmount"] else []) ++
  (if (match lookupField data "lineItems" with
       | some (.vItems items) =>
         items.any (fun item => !((item.sku.getD "") ≠ ""))
       | _ => false) then ["lineItems"] else [])

/-- `categorizeInvoiceScenario`: underscore-joined applicable scenario
tags, defaulting to "standard". -/
def categorizeInvoiceScenario (invoice : Invoice) : String :=
  let data := invoice.extractedData
  let scenarios :=
    (if !truthyField data "poNumber" then ["missing_po"] else []) ++
    (if !truthyField data "serviceDate" then ["missing_service_date"] else []) ++
    (if truthyField data "vatIncluded" then ["vat_included"] else []) ++
    (if !truthyField data "currency" then ["missing_currency"] else [])
  let joined := String.intercalate "_" scenarios
  if joined = "" then "standard" else joined

/-- The processor's private `recallMemories`: vendor memories, correction
memories per flagged field, then scenario-filtered resolution memories;
each recall threads (and decays) the store. -/
def recallStage (s : Store) (now : ℤ) (invoice : Invoice) :
    Store × List Memory :=
  let (s1, vendorMemories) :=
    MemoryManager.recallMemories s now invoice { type := some .vendor }
  let fieldIssues := detectFieldIssues invoice
  let (s2, fieldMemories) := fieldIssues.foldl
    (fun (acc : Store × List Memory) field =>
      let (st, ms) := MemoryManager.recallMemories acc.1 now invoice
        { type := some .correction, fieldName := some field }
      (st, acc.2 ++ ms))
    (s1, [])
  let scenario := categorizeInvoiceScenario invoice
  let (s3, resolutionMemories) :=
    MemoryManager.recallMemories s2 now invoice { type := some .resolution }
  (s3, vendorMemories ++ fieldMemories ++
    resolutionMemories.filter (fun m =>
      match m.kind with
      | .resolution sc _ _ _ => m.type = .resolution && strContains sc scenario
      | _ => false))

/-- `assessRiskFactors`: financial fields, low-confidence corrections,
more than three corrections. -/
def assessRiskFactors (corrections : List Correction) : List String :=
  (if corrections.any (fun c =>
      c.field = "amount" || c.field = "vatAmount" || c.field = "totalPrice") then
    ["financial_impact"] else []) ++
  (if corrections.any (fun c => c.confidence < 3/5) then
    ["low_confidence_corrections"] else []) ++
  (if 3 < corrections.length then ["multiple_corrections"] else [])

/-- `toFixed(3)` on the rationals the pipeline produces. -/
def fixed3 (q : ℚ) : String :=
  let n := jsRound (q * 1000)
  let a := n.natAbs
  let frac := a % 1000
  let pad := if frac < 10 then "00" else if frac < 100 then "0" else ""
  (if n < 0 then "-" else "") ++ toString (a / 1000) ++ "." ++ pad ++
    toString frac

/-- `makeDecision`: the five-branch decision ladder. -/
def makeDecision (confidence : ℚ) (corrections : List Correction) :
    Bool × String :=
  if autoAccept ≤ confidence ∧ corrections.length = 0 then
    (false, "High confidence (" ++ fixed3 confidence ++
      ") with no corrections needed - AUTO-ACCEPT")
  else if autoCorrect ≤ confidence ∧
      corrections.all (fun c => decide ((7:ℚ)/10 ≤ c.confidence)) then
    (false, "Good confidence (" ++ fixed3 confidence ++
      ") with reliable corrections - AUTO-CORRECT")
  else if confidence < escalate then
    (true, "Low confidence (" ++ fixed3 confidence ++
      ") - ESCALATE for human review")
  else
    let riskFactors := assessRiskFactors corrections
    if 0 < riskFactors.length then
      (true, "Risk factors detected: " ++ String.intercalate ", " riskFactors ++
        " - ESCALATE")
    else
      (true, "Medium confidence (" ++ fixed3 confidence ++
        ") - ESCALATE for safety")

/-- `identifyLearningOpportunities`. -/
def identifyLearningOpportunities (corrections : List Correction) :
    List String :=
  (if corrections.length = 0 then ["successful_processing"] else []) ++
  corrections.map (fun c => "correction_" ++ c.field)

/-- `applyCorrections`: deep-copy the invoice and overwrite each
corrected field (later corrections overwrite earlier ones). -/
def applyCorrections (invoice : Invoice) (corrections : List Correction) :
    Invoice :=
  { invoice with
    extractedData := corrections.foldl
      (fun d c => setField d c.field c.proposedValue) invoice.extractedData }

/-- The claim-level conflict condition: some field received two distinct
proposed values. -/
def HasConflict (corrections : List Correction) : Prop :=
  ∃ c ∈ corrections, ∃ d ∈ corrections,
    c.field = d.field ∧ c.proposedValue ≠ d.proposedValue

instance (corrections : List Correction) : Decidable (HasConflict corrections) := by
  unfold HasConflict; infer_instance

/-- The memories the apply loop applies (eligible and producing). -/
def appliedMemories (rt : RegexTest) (invoice : Invoice)
    (memories : List Memory) : List Memory :=
  memories.filter (fun m =>
    !(m.confidence < memoryApplication) && (applyMemory rt invoice m).isSome)

/-- The corrections the loop produces, in order. -/
def producedCorrections (rt : RegexTest) (invoice : Invoice)
    (memories : List Memory) : List Correction :=
  memories.filterMap (fun m =>
    if m.confidence < memoryApplication then none else applyMemory rt invoice m)

/-- Product of the applied memories' confidences. -/
def appliedProduct (rt : RegexTest) (invoice : Invoice)
    (memories : List Memory) : ℚ :=
  ((appliedMemories rt invoice memories).map (fun m => m.confidence)).prod

/-- A correction memory carrying the always-matching sentinel pattern. -/
def sentinelCorrection (m : Memory) : Bool :=
  match m.kind with
  | .correction _ originalPattern _ _ _ _ => originalPattern = "human_correction"
  | _ => false

/-- The proposed value of the last correction in the list naming `f`. -/
def lastProposed (f : String) : List Correction → Option Value
  | [] => none
  | c :: cs =>
    match lastProposed f cs with
    | some v => some v
    | none => if c.field = f then some c.proposedValue else none

/-- `processInvoice`: the four-stage pipeline.  `ts` is the sampled wall
clock for the audit timestamps. -/
def processInvoice (rt : RegexTest) (s : Store) (now : ℤ) (ts : String)
    (invoice : Invoice) : Store × ProcessingResult :=
  let (s1, relevantMemories) := recallStage s now invoice
  let recallEntry : AuditEntry :=
    { step := "recall", timestamp := ts,
      details := "Retrieved " ++ toString relevantMemories.length ++
        " relevant memories for vendor " ++ invoice.vendor,
      memoryReferences := some (relevantMemories.map (fun m => m.id)) }
  let outcome := applyMemories rt s1 now invoice relevantMemories
  let applyEntry : AuditEntry :=
    { step := "apply", timestamp := ts,
      details := "Applied " ++ toString outcome.corrections.length ++
        " corrections with overall confidence " ++ fixed3 outcome.confidence,
      confidence := some outcome.confidence,
      memoryReferences := some (outcome.corrections.map (fun c => c.memorySource)) }
  let decision := makeDecision outcome.confidence outcome.corrections
  let decideEntry : AuditEntry :=
    { step := "decide", timestamp := ts,
      details := "Decision: " ++
        (if decision.1 then "ESCALATE" else "AUTO-PROCESS") ++ " - " ++
        decision.2,
      confidence := some outcome.confidence }
  let learningOpportunities := identifyLearningOpportunities outcome.corrections
  let learnEntry : AuditEntry :=
    { step := "learn", timestamp := ts,
      details := "Identified " ++ toString learningOpportunities.length ++
        " learning opportunities for future feedback" }
  let normalizedInvoice := applyCorrections invoice outcome.corrections
  (outcome.store,
   { normalizedInvoice := normalizedInvoice,
     proposedCorrections := outcome.corrections,
     requiresHumanReview := decision.1,
     reasoning := decision.2,
     confidenceScore := outcome.confidence,
     memoryUpdates := outcome.updates,
     auditTrail := [recallEntry, applyEntry, decideEntry, learnEntry] })

/-- The apply-stage outcome `processInvoice` computes. -/
def pipelineOutcome (rt : RegexTest) (s : Store) (now : ℤ) (invoice : Invoice) :
    ApplyOutcome :=
  applyMemories rt (recallStage s now invoice).1 now invoice
    (recallStage s now invoice).2

end InvoiceProcessor

/-! ### Store-level confidence bounds -/

/-- Every memory of the store has confidence in the documented band
[MIN_CONFIDENCE, MAX_CONFIDENCE] = [0.1, 0.95]. -/
def storeConfOK (s : Store) : Prop :=
  ∀ m ∈ s, 1/10 ≤ m.confidence ∧ m.confidence ≤ 19/20

/-- The `approvalCount` of a memory (0 for non-correction variants). -/
def approvalCountOf (m : Memory) : Nat :=
  match m.kind with
  | .correction _ _ _ _ approvalCount _ => approvalCount
  | _ => 0

/-! ### Decay characterisation helpers -/

namespace MemoryManager

/-- The post-decay confidence the decay rule assigns to a fetched memory:
untouched inside the 7-day grace window, otherwise multiplied by
`0.95^(days-7)` and floored at 0.1. -/
def decayedConfidence (now : ℤ) (m : Memory) : ℚ :=
  let d := now - (m.lastUsedAtDay.getD m.createdAtDay)
  if 7 < d then max (m.confidence * (19/20) ^ (d - 7).toNat) (1/10)
  else m.confidence

/-- The effect of one fetched memory's decay write on one store row. -/
def decayStep (now : ℤ) (m : Memory) (x : Memory) : Memory :=
  if 7 < now - (m.lastUsedAtDay.getD m.createdAtDay) ∧
     max (m.confidence *
       (19/20) ^ ((now - (m.lastUsedAtDay.getD m.createdAtDay)) - 7).toNat)
       (1/10) ≠ m.confidence ∧
     x.id = m.id then
    { x with
      confidence := max (m.confidence *
        (19/20) ^ ((now - (m.lastUsedAtDay.getD m.createdAtDay)) - 7).toNat)
        (1/10),
      lastUpdatedAtDay := now }
  else x

end MemoryManager

/-! ### Concrete evaluation fixtures -/

/-- A concrete regex oracle: no pattern matches (the claims settled on
concrete inputs only exercise the sentinel path, which never consults
the oracle). -/
def rt0 : RegexTest := fun _ _ => false

/-- A vendor action used by the creation counterexample. -/
def act0 : VendorAction :=
  { type := .field_mapping, targetField := "serviceDate" }

/-- An invoice of vendor V with only a date: the field-issue heuristics
flag serviceDate, currency, poNumber and vatIncluded. -/
def inv9 : Invoice :=
  { id := "inv-x", vendor := "V", rawText := "hello",
    extractedData := [("date", .vStr "2024-01-15")] }

/-- A sentinel correction memory proposing currency EUR at confidence 0.8. -/
def memA : Memory :=
  { id := "ma",
    kind := .correction "currency" "human_correction" (.vStr "EUR")
      "human feedback" 0 0,
    vendor := "V", confidence := 4/5, usageCount := 0, createdAtDay := 0,
    lastUsedAtDay := some 0, lastUpdatedAtDay := 0, isActive := true }

/-- A sentinel correction memory proposing currency USD at confidence 0.7. -/
def memB : Memory :=
  { id := "mb",
    kind := .correction "currency" "human_correction" (.vStr "USD")
      "human feedback" 0 0,
    vendor := "V", confidence := 7/10, usageCount := 0, createdAtDay := 0,
    lastUsedAtDay := some 0, lastUpdatedAtDay := 0, isActive := true }

/-- A store holding the two conflicting currency corrections. -/
def s9 : Store := [memA, memB]

/-- A vendor memory of confidence 0.31 unused for 9 days when recalled at
day 9: its decayed confidence 0.31 * 0.95^2 = 0.279775 falls below the
0.3 recall minimum. -/
def mc2 : Memory :=
  { id := "mc", kind := .vendor "trig" act0 "pat", vendor := "V",
    confidence := 31/100, usageCount := 0, createdAtDay := 0,
    lastUsedAtDay := none, lastUpdatedAtDay := 0, isActive := true }

/-- Store for the recall-decay counterexample. -/
def s2 : Store := [mc2]

/-- A correction memory of confidence 0.5 and usage count 3, the
reinforcement failing input. -/
def cm3 : Memory :=
  { id := "c1",
    kind := .correction "currency" "human_correction" (.vStr "EUR") "hf" 0 0,
    vendor := "V", confidence := 1/2, usageCount := 3, createdAtDay := 0,
    lastUsedAtDay := some 0, lastUpdatedAtDay := 0, isActive := true }

/-- Store for the reinforcement failing input. -/
def s3 : Store := [cm3]

/-- An active vendor memory of confidence 0.3; weakening it by the default
strength 0.2 drives it to the 0.1 floor. -/
def m4 : Memory :=
  { id := "w1", kind := .vendor "trig" act0 "pat", vendor := "V",
    confidence := 3/10, usageCount := 0, createdAtDay := 0,
    lastUsedAtDay := some 0, lastUpdatedAtDay := 0, isActive := true }

/-- Store for the weakening-deactivation witness. -/
def s4 : Store := [m4]

/-- The record the weakening deactivation leaves in the store: the
original snapshot with the active flag cleared. -/
def m4x : Memory := { m4 with isActive := false }

/-! ### General list helpers -/

theorem two_le_length_of_mem_ne {α : Type} {l : List α} {a b : α}
    (ha : a ∈ l) (hb : b ∈ l) (hab : a ≠ b) : 2 ≤ l.length := by
  match l with
  | [] => exact absurd ha (List.not_mem_nil a)
  | [x] =>
    rw [List.mem_singleton] at ha hb
    exact absurd (ha.trans hb.symm) hab
  | x :: y :: t => simp [Nat.le_add_left]

namespace InvoiceProcessor

theorem mem_dedupAux {α : Type} [DecidableEq α] {l : List α} :
    ∀ {seen : List α} {a : α}, a ∈ dedupAux l seen ↔ a ∈ l ∧ a ∉ seen := by
  induction l with
  | nil => intro seen a; simp [dedupAux]
  | cons x xs ih =>
    intro seen a
    by_cases hx : x ∈ seen
    · rw [dedupAux, if_pos hx, ih]
      constructor
      · rintro ⟨h1, h2⟩; exact ⟨List.mem_cons_of_mem x h1, h2⟩
      · rintro ⟨h1, h2⟩
        rcases List.mem_cons.mp h1 with h | h
        · exact absurd (h ▸ hx) h2
        · exact ⟨h, h2⟩
    · rw [dedupAux, if_neg hx]
      simp only [List.mem_cons, ih]
      constructor
      · rintro (rfl | ⟨h1, h2⟩)
        · exact ⟨Or.inl rfl, hx⟩
        · exact ⟨Or.inr h1, fun hmem => h2 (by simp [hmem])⟩
      · rintro ⟨rfl | h1, h2⟩
        · exact Or.inl rfl
        · by_cases hax : a = x
          · exact Or.inl hax
          · exact Or.inr ⟨h1, by simp [hax, h2]⟩

theorem nodup_dedupAux {α : Type} [DecidableEq α] {l : List α} :
    ∀ {seen : List α}, (dedupAux l seen).Nodup := by
  induction l with
  | nil => intro seen; simp [dedupAux]
  | cons x xs ih =>
    intro seen
    by_cases hx : x ∈ seen
    · rw [dedupAux, if_pos hx]; exact ih
    · rw [dedupAux, if_neg hx]
      refine List.nodup_cons.mpr ⟨?_, ih⟩
      intro hmem
      exact (mem_dedupAux.mp hmem).2 (List.mem_cons_self x seen)

theorem mem_dedupKeepFirst {α : Type} [DecidableEq α] {l : List α} {a : α} :
    a ∈ dedupKeepFirst l ↔ a ∈ l := by
  unfold dedupKeepFirst
  rw [mem_dedupAux]
  simp

theorem two_le_dedupKeepFirst_iff {α : Type} [DecidableEq α] {l : List α} :
    2 ≤ (dedupKeepFirst l).length ↔ ∃ a ∈ l, ∃ b ∈ l, a ≠ b := by
  constructor
  · intro h
    match hdk : dedupKeepFirst l with
    | [] => rw [hdk] at h; simp at h
    | [u] => rw [hdk] at h; simp at h
    | u :: v :: w =>
      have hnd : (dedupKeepFirst l).Nodup := nodup_dedupAux
      rw [hdk] at hnd
      have huv : u ≠ v := by
        intro huv
        exact (List.nodup_cons.mp hnd).1 (huv ▸ List.mem_cons_self v w)
      have hu : u ∈ l := mem_dedupKeepFirst.mp (hdk ▸ List.mem_cons_self u (v :: w))
      have hv : v ∈ l := mem_dedupKeepFirst.mp
        (hdk ▸ List.mem_cons_of_mem u (List.mem_cons_self v w))
      exact ⟨u, hu, v, hv, huv⟩
  · rintro ⟨a, ha, b, hb, hab⟩
    exact two_le_length_of_mem_ne (mem_dedupKeepFirst.mpr ha)
      (mem_dedupKeepFirst.mpr hb) hab

theorem detectMemoryConflicts_ne_nil_iff {corrections : List Correction} :
    detectMemoryConflicts corrections ≠ [] ↔ HasConflict corrections := by
  unfold detectMemoryConflicts HasConflict
  rw [Ne, List.map_eq_nil_iff, List.filter_eq_nil_iff]
  push_neg
  constructor
  · rintro ⟨f, hf, hp⟩
    simp only [Bool.and_eq_true, decide_eq_true_eq] at hp
    obtain ⟨va, hva, vb, hvb, hvab⟩ := two_le_dedupKeepFirst_iff.mp hp.2
    obtain ⟨c, hc, hcv⟩ := List.mem_map.mp hva
    obtain ⟨d, hd, hdv⟩ := List.mem_map.mp hvb
    rw [List.mem_filter, decide_eq_true_eq] at hc hd
    exact ⟨c, hc.1, d, hd.1, hc.2.trans hd.2.symm, by rw [hcv, hdv]; exact hvab⟩
  · rintro ⟨c, hc, d, hd, hfield, hval⟩
    refine ⟨c.field, mem_dedupKeepFirst.mpr (List.mem_map_of_mem _ hc), ?_⟩
    have hcmem : c ∈ corrections.filter (fun e => e.field = c.field) :=
      List.mem_filter.mpr ⟨hc, by simp⟩
    have hdmem : d ∈ corrections.filter (fun e => e.field = c.field) :=
      List.mem_filter.mpr ⟨hd, by simp [hfield.symm]⟩
    have hcd : c ≠ d := fun h => hval (by rw [h])
    simp only [Bool.and_eq_true, decide_eq_true_eq]
    refine ⟨two_le_length_of_mem_ne hcmem hdmem hcd, ?_⟩
    exact two_le_dedupKeepFirst_iff.mpr
      ⟨c.proposedValue, List.mem_map_of_mem _ hcmem,
       d.proposedValue, List.mem_map_of_mem _ hdmem, hval⟩

/-! ### Characterisation of the apply loop -/

theorem applyFold_spec (rt : RegexTest) (invoice : Invoice) (now : ℤ)
    (memories : List Memory) : ∀ st : ApplyState,
    (memories.foldl (applyStep rt invoice now) st).corrections =
      st.corrections ++ producedCorrections rt invoice memories ∧
    (memories.foldl (applyStep rt invoice now) st).totalConfidence =
      st.totalConfidence * appliedProduct rt invoice memories ∧
    (memories.foldl (applyStep rt invoice now) st).appliedCount =
      st.appliedCount + (appliedMemories rt invoice memories).length := by
  induction memories with
  | nil =>
    intro st
    simp [producedCorrections, appliedProduct, appliedMemories]
  | cons m ms ih =>
    intro st
    by_cases hconf : m.confidence < memoryApplication
    · have hstep : applyStep rt invoice now st m = st := by
        simp [applyStep, hconf]
      have hprod : producedCorrections rt invoice (m :: ms) =
          producedCorrections rt invoice ms := by
        simp [producedCorrections, hconf]
      have happ : appliedMemories rt invoice (m :: ms) =
          appliedMemories rt invoice ms := by
        simp [appliedMemories, List.filter_cons, hconf]
      have hap2 : appliedProduct rt invoice (m :: ms) =
          appliedProduct rt invoice ms := by
        simp [appliedProduct, happ]
      simp only [List.foldl_cons, hstep, hprod, happ, hap2]
      exact ih st
    · cases hap : applyMemory rt invoice m with
      | none =>
        have hstep : applyStep rt invoice now st m = st := by
          simp [applyStep, hconf, hap]
        have hprod : producedCorrections rt invoice (m :: ms) =
            producedCorrections rt invoice ms := by
          simp [producedCorrections, hconf, hap]
        have happ : appliedMemories rt invoice (m :: ms) =
            appliedMemories rt invoice ms := by
          simp [appliedMemories, List.filter_cons, hconf, hap]
        have hap2 : appliedProduct rt invoice (m :: ms) =
            appliedProduct rt invoice ms := by
          simp [appliedProduct, happ]
        simp only [List.foldl_cons, hstep, hprod, happ, hap2]
        exact ih st
      | some c =>
        have hprod : producedCorrections rt invoice (m :: ms) =
            c :: producedCorrections rt invoice ms := by
          simp [producedCorrections, hconf, hap]
        have happ : appliedMemories rt invoice (m :: ms) =
            m :: appliedMemories rt invoice ms := by
          simp [appliedMemories, List.filter_cons, hconf, hap]
        have hap2 : appliedProduct rt invoice (m :: ms) =
            m.confidence * appliedProduct rt invoice ms := by
          simp [appliedProduct, happ]
        have hstep : applyStep rt invoice now st m =
            { store := MemoryManager.reinforceMemory st.store now m.id (1/50),
              corrections := st.corrections ++ [c],
              updates := st.updates ++
                [{ type := "reinforce", memoryId := some m.id,
                   details := "Applied memory for " ++ c.field ++ " correction" }],
              totalConfidence := st.totalConfidence * m.confidence,
              appliedCount := st.appliedCount + 1 } := by
          simp [applyStep, hconf, hap]
        simp only [List.foldl_cons, hstep, hprod, happ, hap2]
        obtain ⟨h1, h2, h3⟩ := ih
          { store := MemoryManager.reinforceMemory st.store now m.id (1/50),
            corrections := st.corrections ++ [c],
            updates := st.updates ++
              [{ type := "reinforce", memoryId := some m.id,
                 details := "Applied memory for " ++ c.field ++ " correction" }],
            totalConfidence := st.totalConfidence * m.confidence,
            appliedCount := st.appliedCount + 1 }
        refine ⟨by simpa using h1, ?_, ?_⟩
        · rw [h2]
          dsimp only
          ring
        · rw [h3]
          dsimp only [List.length_cons]
          omega

theorem applyMemories_corrections (rt : RegexTest) (s : Store) (now : ℤ)
    (invoice : Invoice) (memories : List Memory) :
    (applyMemories rt s now invoice memories).corrections =
      producedCorrections rt invoice memories := by
  unfold applyMemories
  simpa using (applyFold_spec rt invoice now memories _).1

theorem length_producedCorrections (rt : RegexTest) (invoice : Invoice)
    (memories : List Memory) :
    (producedCorrections rt invoice memories).length =
      (appliedMemories rt invoice memories).length := by
  induction memories with
  | nil => simp [producedCorrections, appliedMemories]
  | cons m ms ih =>
    by_cases hconf : m.confidence < memoryApplication
    · simpa [producedCorrections, appliedMemories, List.filter_cons, hconf]
        using ih
    · cases hap : applyMemory rt invoice m with
      | none =>
        simpa [producedCorrections, appliedMemories, List.filter_cons, hconf,
          hap] using ih
      | some c =>
        simpa [producedCorrections, appliedMemories, List.filter_cons, hconf,
          hap] using ih

theorem applyMemories_confidence (rt : RegexTest) (s : Store) (now : ℤ)
    (invoice : Invoice) (memories : List Memory) :
    (applyMemories rt s now invoice memories).confidence =
      if producedCorrections rt invoice memories = [] then 9/10
      else if HasConflict (producedCorrections rt invoice memories) then
        appliedProduct rt invoice memories * (7/10)
      else appliedProduct rt invoice memories := by
  obtain ⟨h1, h2, h3⟩ := applyFold_spec rt invoice now memories
    { store := s, corrections := [], updates := [], totalConfidence := 1,
      appliedCount := 0 }
  unfold applyMemories
  simp only [h1, h2, h3, List.nil_append, Nat.zero_add, one_mul]
  by_cases hnil : producedCorrections rt invoice memories = []
  · have : (appliedMemories rt invoice memories).length = 0 := by
      rw [← length_producedCorrections, hnil]; rfl
    simp [hnil, this]
  · have hlen : 0 < (appliedMemories rt invoice memories).length := by
      rw [← length_producedCorrections]
      exact List.length_pos.mpr hnil
    by_cases hconf : HasConflict (producedCorrections rt invoice memories)
    · have := detectMemoryConflicts_ne_nil_iff.mpr hconf
      simp [hnil, hconf, hlen, List.length_pos.mpr this]
    · have : detectMemoryConflicts (producedCorrections rt invoice memories) = [] := by
        by_contra hne
        exact hconf (detectMemoryConflicts_ne_nil_iff.mp hne)
      simp [hnil, hconf, hlen, this]

/-! ### Definitional projections of the pipeline result -/

theorem processInvoice_proposedCorrections (rt : RegexTest) (s : Store)
    (now : ℤ) (ts : String) (invoice : Invoice) :
    ((processInvoice rt s now ts invoice).2).proposedCorrections =
      (pipelineOutcome rt s now invoice).corrections := rfl

theorem processInvoice_confidenceScore (rt : RegexTest) (s : Store)
    (now : ℤ) (ts : String) (invoice : Invoice) :
    ((processInvoice rt s now ts invoice).2).confidenceScore =
      (pipelineOutcome rt s now invoice).confidence := rfl

theorem processInvoice_requiresHumanReview (rt : RegexTest) (s : Store)
    (now : ℤ) (ts : String) (invoice : Invoice) :
    ((processInvoice rt s now ts invoice).2).requiresHumanReview =
      (makeDecision (pipelineOutcome rt s now invoice).confidence
        (pipelineOutcome rt s now invoice).corrections).1 := rfl

theorem processInvoice_normalizedInvoice (rt : RegexTest) (s : Store)
    (now : ℤ) (ts : String) (invoice : Invoice) :
    ((processInvoice rt s now ts invoice).2).normalizedInvoice =
      applyCorrections invoice (pipelineOutcome rt s now invoice).corrections :=
  rfl

end InvoiceProcessor

/-! ### Query and store membership lemmas -/

theorem mem_queryMemories {s : Store} {q : MemoryQuery} {m : Memory}
    (h : m ∈ queryMemories s q) : m ∈ s ∧ passesQuery q m = true := by
  unfold queryMemories at h
  have hsorted : m ∈ List.insertionSort memOrd (s.filter (passesQuery q)) := by
    rcases hq : q.limit with _ | n
    · simpa [hq] using h
    · by_cases hn : n = 0
      · simpa [hq, hn] using h
      · rw [hq] at h
        simp only [if_neg hn] at h
        exact List.take_subset _ _ h
  have := (List.mem_insertionSort memOrd).mp hsorted
  exact ⟨(List.mem_filter.mp this).1, (List.mem_filter.mp this).2⟩

theorem isActive_of_passesQuery {q : MemoryQuery} {m : Memory}
    (h : passesQuery q m = true) : m.isActive = true := by
  unfold passesQuery at h
  simp only [Bool.and_eq_true] at h
  exact h.1.1.1.1.1

namespace MemoryManager

theorem mem_recallMemories_snd {s : Store} {now : ℤ} {invoice : Invoice}
    {q : MemoryQuery} {m : Memory}
    (h : m ∈ (recallMemories s now invoice q).2) :
    m ∈ queryMemories s (fullQueryOf invoice q) := by
  unfold recallMemories at h
  simp only [List.mem_filter] at h
  exact h.1

end MemoryManager

/-! ### Field update lemmas (for the normalized invoice) -/

theorem lookupField_setField_same (d : ExtractedData) (f : String) (v : Value) :
    lookupField (setField d f v) f = some v := by
  induction d with
  | nil => simp [setField, lookupField]
  | cons p d ih =>
    obtain ⟨g, w⟩ := p
    by_cases hgf : g = f
    · simp [setField, lookupField, hgf]
    · simp [setField, lookupField, hgf, ih]

theorem lookupField_setField_other (d : ExtractedData) {f g : String}
    (v : Value) (hgf : g ≠ f) :
    lookupField (setField d f v) g = lookupField d g := by
  have hfg : f ≠ g := Ne.symm hgf
  induction d with
  | nil => simp [setField, lookupField, hfg]
  | cons p d ih =>
    obtain ⟨k, w⟩ := p
    by_cases hkf : k = f
    · subst hkf
      simp [setField, lookupField, hfg]
    · simp [setField, lookupField, hkf, ih]

namespace InvoiceProcessor

theorem lookupField_foldl_setField (cs : List Correction) :
    ∀ (d : ExtractedData) (f : String),
    lookupField
      (cs.foldl (fun d c => setField d c.field c.proposedValue) d) f =
      match lastProposed f cs with
      | some v => some v
      | none => lookupField d f := by
  induction cs with
  | nil => intro d f; simp [lastProposed]
  | cons c cs ih =>
    intro d f
    rw [List.foldl_cons, ih]
    rcases hlast : lastProposed f cs with _ | v
    · rw [lastProposed, hlast]
      by_cases hcf : c.field = f
      · subst hcf
        simp [lookupField_setField_same]
      · simp [hcf, lookupField_setField_other _ _ (fun h => hcf h.symm)]
    · rw [lastProposed, hlast]

theorem lastProposed_eq_none (cs : List Correction) (f : String)
    (h : ∀ c ∈ cs, c.field ≠ f) : lastProposed f cs = none := by
  induction cs with
  | nil => rfl
  | cons c cs ih =>
    rw [lastProposed, ih (fun d hd => h d (List.mem_cons_of_mem c hd))]
    simp [h c (List.mem_cons_self c cs)]

end InvoiceProcessor

/-! ### Decay-pass characterisation (for the recall claims) -/

namespace MemoryManager

theorem decayStep_id (now : ℤ) (m x : Memory) :
    (decayStep now m x).id = x.id := by
  unfold decayStep
  split <;> rfl

theorem foldl_decayStep_id (now : ℤ) (mems : List Memory) (x : Memory) :
    (mems.foldl (fun y m => decayStep now m y) x).id = x.id := by
  induction mems generalizing x with
  | nil => rfl
  | cons m ms ih => rw [List.foldl_cons, ih, decayStep_id]

theorem foldl_decayStep_skip (now : ℤ) {mems : List Memory} {x : Memory}
    (h : ∀ m ∈ mems, m.id ≠ x.id) :
    mems.foldl (fun y m => decayStep now m y) x = x := by
  induction mems with
  | nil => rfl
  | cons m ms ih =>
    rw [List.foldl_cons]
    have hstep : decayStep now m x = x := by
      unfold decayStep
      rw [if_neg]
      rintro ⟨-, -, hid⟩
      exact h m (List.mem_cons_self m ms) hid.symm
    rw [hstep]
    exact ih (fun m' hm' => h m' (List.mem_cons_of_mem m hm'))

theorem decayWrite_eq_map (now : ℤ) (st : Store) (m : Memory) :
    decayWrite now st m = st.map (decayStep now m) := by
  unfold decayWrite
  dsimp only
  by_cases hd : 7 < now - (m.lastUsedAtDay.getD m.createdAtDay)
  · by_cases hne :
      max (m.confidence *
        (19/20 : ℚ) ^ ((now - (m.lastUsedAtDay.getD m.createdAtDay)) - 7).toNat)
        (1/10) ≠ m.confidence
    · rw [if_pos hd, if_pos hne]
      unfold updateMemoryConfidence
      refine List.map_congr_left (fun x _ => ?_)
      unfold decayStep
      by_cases hid : x.id = m.id
      · rw [if_pos hid, if_pos ⟨hd, hne, hid⟩]
      · rw [if_neg hid, if_neg (fun h => hid h.2.2)]
    · rw [if_pos hd, if_neg hne]
      refine ((List.map_congr_left (fun x _ => ?_)).trans (List.map_id' st)).symm
      unfold decayStep
      exact if_neg (fun h => hne h.2.1)
  · rw [if_neg hd]
    refine ((List.map_congr_left (fun x _ => ?_)).trans (List.map_id' st)).symm
    unfold decayStep
    exact if_neg (fun h => hd h.1)

theorem applyDecay_eq_map (now : ℤ) (mems : List Memory) :
    ∀ st : Store,
    applyDecayToUnusedMemories st now mems =
      st.map (fun x => mems.foldl (fun y m => decayStep now m y) x) := by
  induction mems with
  | nil =>
    intro st
    simp only [applyDecayToUnusedMemories, List.foldl_nil]
    exact (List.map_id' st).symm
  | cons m ms ih =>
    intro st
    calc applyDecayToUnusedMemories st now (m :: ms)
        = applyDecayToUnusedMemories (st.map (decayStep now m)) now ms := by
          unfold applyDecayToUnusedMemories
          rw [List.foldl_cons, decayWrite_eq_map]
      _ = (st.map (decayStep now m)).map
            (fun x => ms.foldl (fun y m' => decayStep now m' y) x) := ih _
      _ = st.map (fun x => (m :: ms).foldl (fun y m' => decayStep now m' y) x) := by
          rw [List.map_map]
          rfl

end MemoryManager

/-! ### Confidence-band preservation lemmas -/

theorem storeConfOK_updateMemoryConfidence {s : Store} {c : ℚ}
    (hs : storeConfOK s) (h1 : 1/10 ≤ c) (h2 : c ≤ 19/20)
    (memoryId : String) (now : ℤ) :
    storeConfOK (updateMemoryConfidence s memoryId c now) := by
  intro m hm
  obtain ⟨x, hx, hfx⟩ := List.mem_map.mp hm
  by_cases hid : x.id = memoryId
  · rw [if_pos hid] at hfx
    rw [← hfx]
    exact ⟨h1, h2⟩
  · rw [if_neg hid] at hfx
    rw [← hfx]
    exact hs x hx

theorem storeConfOK_updateMemoryUsage {s : Store} (hs : storeConfOK s)
    (memoryId : String) (now : ℤ) :
    storeConfOK (updateMemoryUsage s memoryId now) := by
  intro m hm
  obtain ⟨x, hx, hfx⟩ := List.mem_map.mp hm
  by_cases hid : x.id = memoryId
  · rw [if_pos hid] at hfx
    rw [← hfx]
    exact hs x hx
  · rw [if_neg hid] at hfx
    rw [← hfx]
    exact hs x hx

theorem storeConfOK_saveMemory {s : Store} {m : Memory} (hs : storeConfOK s)
    (h1 : 1/10 ≤ m.confidence) (h2 : m.confidence ≤ 19/20) :
    storeConfOK (saveMemory s m) := by
  intro x hx
  unfold saveMemory at hx
  by_cases hany : s.any (fun y => y.id = m.id)
  · rw [if_pos hany] at hx
    obtain ⟨y, hy, hfy⟩ := List.mem_map.mp hx
    by_cases hid : y.id = m.id
    · rw [if_pos hid] at hfy
      rw [← hfy]
      exact ⟨h1, h2⟩
    · rw [if_neg hid] at hfy
      rw [← hfy]
      exact hs y hy
  · rw [if_neg hany] at hx
    rcases List.mem_append.mp hx with h | h
    · exact hs x h
    · rw [List.mem_singleton.mp h]
      exact ⟨h1, h2⟩

theorem storeConfOK_decayWrite {s : Store} {m : Memory} (hs : storeConfOK s)
    (h1 : 1/10 ≤ m.confidence) (h2 : m.confidence ≤ 19/20) (now : ℤ) :
    storeConfOK (MemoryManager.decayWrite now s m) := by
  unfold MemoryManager.decayWrite
  dsimp only
  by_cases hd : 7 < now - (m.lastUsedAtDay.getD m.createdAtDay)
  · rw [if_pos hd]
    by_cases hne :
        max (m.confidence *
          (19/20 : ℚ) ^ ((now - (m.lastUsedAtDay.getD m.createdAtDay)) - 7).toNat)
          (1/10) ≠ m.confidence
    · rw [if_pos hne]
      refine storeConfOK_updateMemoryConfidence hs (le_max_right _ _)
        (max_le ?_ (by norm_num)) _ _
      calc m.confidence *
            (19/20 : ℚ) ^ ((now - (m.lastUsedAtDay.getD m.createdAtDay)) - 7).toNat
          ≤ m.confidence * 1 := by
            refine mul_le_mul_of_nonneg_left ?_ (le_trans (by norm_num) h1)
            exact pow_le_one₀ (by norm_num) (by norm_num)
        _ = m.confidence := mul_one _
        _ ≤ 19/20 := h2
    · rw [if_neg hne]
      exact hs
  · rw [if_neg hd]
    exact hs

theorem storeConfOK_applyDecay {s : Store} {mems : List Memory}
    (hs : storeConfOK s)
    (hm : ∀ m ∈ mems, 1/10 ≤ m.confidence ∧ m.confidence ≤ 19/20) (now : ℤ) :
    storeConfOK (MemoryManager.applyDecayToUnusedMemories s now mems) := by
  induction mems generalizing s with
  | nil => exact hs
  | cons m ms ih =>
    unfold MemoryManager.applyDecayToUnusedMemories
    rw [List.foldl_cons]
    have hm0 := hm m (List.mem_cons_self m ms)
    exact ih (storeConfOK_decayWrite hs hm0.1 hm0.2 now)
      (fun m' hm' => hm m' (List.mem_cons_of_mem m hm'))

/-! ### Ids of query results -/

theorem nodup_ids_queryMemories {s : Store} {q : MemoryQuery}
    (h : (s.map (fun m => m.id)).Nodup) :
    ((queryMemories s q).map (fun m => m.id)).Nodup := by
  have hfilter : ((s.filter (passesQuery q)).map (fun m => m.id)).Nodup :=
    ((List.filter_sublist s).map _).nodup h
  have hsorted :
      ((List.insertionSort memOrd (s.filter (passesQuery q))).map
        (fun m => m.id)).Nodup :=
    (((List.perm_insertionSort memOrd (s.filter (passesQuery q))).map _).nodup_iff).mpr
      hfilter
  unfold queryMemories
  rcases hq : q.limit with _ | n
  · exact hsorted
  · by_cases hn : n = 0
    · simpa [hn] using hsorted
    · simp only [if_neg hn]
      exact ((List.take_sublist n _).map _).nodup hsorted

/-! ## The claims -/

open InvoiceProcessor MemoryManager

/-- C5: for every overall confidence strictly below 0.4 and every list of
corrections (including lists whose corrections all have individual
confidence at least 0.7), `makeDecision` returns requiresReview = true. -/
theorem C5_escalate_below_threshold (confidence : ℚ)
    (corrections : List Correction) (h : confidence < 2/5) :
    (makeDecision confidence corrections).1 = true := by
  unfold makeDecision autoAccept autoCorrect escalate
  rw [if_neg (fun hc => absurd hc.1 (not_le.mpr (by linarith))),
    if_neg (fun hc => absurd hc.1 (not_le.mpr (by linarith))),
    if_pos h]

/-- Witness for C5 at confidence 0.3 and an empty correction list. -/
theorem C5_escalate_below_threshold_witness :
    (makeDecision (3/10) []).1 = true :=
  C5_escalate_below_threshold (3/10) [] (by norm_num)

/-- C8: for every invoice (and store, oracle and clock), the audit trail of
`processInvoice` has exactly four entries whose step names are, in order,
recall, apply, decide, learn. -/
theorem C8_audit_trail_shape (rt : RegexTest) (s : Store) (now : ℤ)
    (ts : String) (invoice : Invoice) :
    (((processInvoice rt s now ts invoice).2).auditTrail).map
      (fun e => e.step) = ["recall", "apply", "decide", "learn"] := rfl

/-- C6: when no recalled memory produces a correction (each one is either
below the 0.5 application threshold or yields no correction),
`processInvoice` returns zero corrections, confidence exactly 0.9, and no
human review. -/
theorem C6_no_corrections_auto_accept (rt : RegexTest) (s : Store) (now : ℤ)
    (ts : String) (invoice : Invoice)
    (h : ∀ m ∈ (recallStage s now invoice).2,
      m.confidence < 1/2 ∨ applyMemory rt invoice m = none) :
    ((processInvoice rt s now ts invoice).2).proposedCorrections = [] ∧
    ((processInvoice rt s now ts invoice).2).confidenceScore = 9/10 ∧
    ((processInvoice rt s now ts invoice).2).requiresHumanReview = false := by
  have hprod : producedCorrections rt invoice (recallStage s now invoice).2 = [] := by
    rw [producedCorrections, List.filterMap_eq_nil_iff]
    intro m hm
    by_cases hc : m.confidence < memoryApplication
    · rw [if_pos hc]
    · rw [if_neg hc]
      rcases h m hm with hlt | hap
      · exact absurd hlt (by simpa [memoryApplication] using hc)
      · exact hap
  have hcorr : (pipelineOutcome rt s now invoice).corrections = [] := by
    rw [pipelineOutcome, applyMemories_corrections, hprod]
  have hconf : (pipelineOutcome rt s now invoice).confidence = 9/10 := by
    rw [pipelineOutcome, applyMemories_confidence, if_pos hprod]
  refine ⟨?_, ?_, ?_⟩
  · rw [processInvoice_proposedCorrections, hcorr]
  · rw [processInvoice_confidenceScore, hconf]
  · rw [processInvoice_requiresHumanReview, hcorr, hconf]
    unfold makeDecision autoAccept
    rw [if_pos ⟨by norm_num, rfl⟩]

/-- Witness for C6: the empty store recalls nothing, so the pipeline
returns no corrections, confidence 0.9 and no review. -/
theorem C6_no_corrections_auto_accept_witness :
    ((processInvoice rt0 [] 0 "" inv9).2).proposedCorrections = [] ∧
    ((processInvoice rt0 [] 0 "" inv9).2).confidenceScore = 9/10 ∧
    ((processInvoice rt0 [] 0 "" inv9).2).requiresHumanReview = false :=
  C6_no_corrections_auto_accept rt0 [] 0 "" inv9 (by
    intro m hm
    rw [show (recallStage ([] : Store) 0 inv9).2 = [] from by
      with_unfolding_all rfl] at hm
    exact absurd hm (List.not_mem_nil m))

/-- C7: if some field receives two or more distinct proposed values among
the produced corrections, the overall apply-stage confidence is the
product of the applied memories' confidences times 0.7 exactly once; with
no such field (and at least one correction) the 0.7 factor is absent. -/
theorem C7_conflict_penalty_once (rt : RegexTest) (s : Store) (now : ℤ)
    (invoice : Invoice) (memories : List Memory) :
    (HasConflict ((applyMemories rt s now invoice memories).corrections) →
      (applyMemories rt s now invoice memories).confidence =
        appliedProduct rt invoice memories * (7/10)) ∧
    (¬ HasConflict ((applyMemories rt s now invoice memories).corrections) →
      (applyMemories rt s now invoice memories).corrections ≠ [] →
      (applyMemories rt s now invoice memories).confidence =
        appliedProduct rt invoice memories) := by
  rw [applyMemories_corrections, applyMemories_confidence]
  constructor
  · intro hc
    have hne : producedCorrections rt invoice memories ≠ [] := by
      obtain ⟨c, hc1, -⟩ := hc
      exact List.ne_nil_of_mem hc1
    rw [if_neg hne, if_pos hc]
  · intro hnc hne
    rw [if_neg hne, if_neg hnc]

/-- Witness for C7: two sentinel correction memories proposing EUR and USD
for the same currency field conflict, so the confidence is the product of
their confidences times 0.7. -/
theorem C7_conflict_penalty_once_witness :
    (applyMemories rt0 ([] : Store) 0 inv9 [memA, memB]).confidence =
      appliedProduct rt0 inv9 [memA, memB] * (7/10) :=
  (C7_conflict_penalty_once rt0 [] 0 inv9 [memA, memB]).1
    (by with_unfolding_all decide)

/-- C10: a recalled correction memory with the sentinel pattern
human_correction and confidence at or above the 0.5 application threshold
always emits a correction proposing its correctedValue (with no
identical-value discard), so such an invoice has at least one proposed
correction and cannot take the zero-corrections auto-accept branch. -/
theorem C10_sentinel_always_applies (rt : RegexTest) (s : Store) (now : ℤ)
    (ts : String) (invoice : Invoice) :
    (∀ (m : Memory) (fn cv cr : _) (ac rc : Nat),
      m.kind = MemKind.correction fn "human_correction" cv cr ac rc →
      applyMemory rt invoice m = some
        { field := fn, originalValue := lookupField invoice.extractedData fn,
          proposedValue := cv, confidence := m.confidence, memorySource := m.id,
          reasoning := "Correction memory: " ++ cr ++ " (approved " ++
            toString ac ++ "x)" }) ∧
    ((∃ m ∈ (recallStage s now invoice).2,
        sentinelCorrection m = true ∧ 1/2 ≤ m.confidence) →
      ((processInvoice rt s now ts invoice).2).proposedCorrections ≠ []) := by
  have happly : ∀ (m : Memory) (fn cv cr : _) (ac rc : Nat),
      m.kind = MemKind.correction fn "human_correction" cv cr ac rc →
      applyMemory rt invoice m = some
        { field := fn, originalValue := lookupField invoice.extractedData fn,
          proposedValue := cv, confidence := m.confidence, memorySource := m.id,
          reasoning := "Correction memory: " ++ cr ++ " (approved " ++
            toString ac ++ "x)" } := by
    intro m fn cv cr ac rc hkind
    unfold applyMemory
    rw [hkind]
    dsimp only
    unfold applyCorrectionMemory
    rw [if_pos (by simp)]
  refine ⟨happly, ?_⟩
  rintro ⟨m, hm, hsent, hconf⟩
  obtain ⟨fn, cv, cr, ac, rc, hkind⟩ :
      ∃ fn cv cr ac rc,
        m.kind = MemKind.correction fn "human_correction" cv cr ac rc := by
    unfold sentinelCorrection at hsent
    rcases hk : m.kind with _ | ⟨fn, op, cv, cr, ac, rc⟩ | _
    · rw [hk] at hsent; exact absurd hsent (by simp)
    · rw [hk] at hsent
      simp only [decide_eq_true_eq] at hsent
      exact ⟨fn, cv, cr, ac, rc, by rw [hsent]⟩
    · rw [hk] at hsent; exact absurd hsent (by simp)
  have hmem : _ ∈ producedCorrections rt invoice (recallStage s now invoice).2 :=
    List.mem_filterMap.mpr ⟨m, hm, by
      rw [if_neg (by simpa [memoryApplication] using not_lt.mpr hconf),
        happly m fn cv cr ac rc hkind]⟩
  rw [processInvoice_proposedCorrections, pipelineOutcome,
    applyMemories_corrections]
  exact List.ne_nil_of_mem hmem

/-- Witness for C10: the sentinel EUR-currency memory is recalled for the
currency-less invoice and forces at least one proposed correction. -/
theorem C10_sentinel_always_applies_witness :
    ((processInvoice rt0 [memA] 0 "" inv9).2).proposedCorrections ≠ [] :=
  (C10_sentinel_always_applies rt0 [memA] 0 "" inv9).2
    ⟨memA, by with_unfolding_all decide, by with_unfolding_all decide,
      by with_unfolding_all decide⟩

/-- Counterexample to C9 as stated: with two recalled sentinel correction
memories proposing EUR and USD for the currency field, the normalized
invoice cannot hold each correction's proposedValue — only the last one
survives. -/
theorem C9_counterexample :
    ¬ (∀ c ∈ ((processInvoice rt0 s9 0 "" inv9).2).proposedCorrections,
        lookupField
          ((processInvoice rt0 s9 0 "" inv9).2).normalizedInvoice.extractedData
          c.field = some c.proposedValue) := by
  with_unfolding_all decide

/-- C9 (amended): the normalized invoice is the input with, for each field
named by at least one correction, the proposedValue of the *last*
correction naming it; every other extractedData field and all other
invoice parts are unchanged (the input itself is never modified — the
embedding is pure). -/
theorem C9_normalized_invoice_amended (rt : RegexTest) (s : Store) (now : ℤ)
    (ts : String) (invoice : Invoice) :
    ((processInvoice rt s now ts invoice).2).normalizedInvoice.id = invoice.id ∧
    ((processInvoice rt s now ts invoice).2).normalizedInvoice.vendor =
      invoice.vendor ∧
    ((processInvoice rt s now ts invoice).2).normalizedInvoice.rawText =
      invoice.rawText ∧
    ((processInvoice rt s now ts invoice).2).normalizedInvoice.metaSource =
      invoice.metaSource ∧
    ((processInvoice rt s now ts invoice).2).normalizedInvoice.metaExtractedAt =
      invoice.metaExtractedAt ∧
    ((processInvoice rt s now ts invoice).2).normalizedInvoice.metaProcessingId =
      invoice.metaProcessingId ∧
    (∀ f, (∀ c ∈ ((processInvoice rt s now ts invoice).2).proposedCorrections,
        c.field ≠ f) →
      lookupField
        ((processInvoice rt s now ts invoice).2).normalizedInvoice.extractedData
        f = lookupField invoice.extractedData f) ∧
    (∀ f v,
      lastProposed f ((processInvoice rt s now ts invoice).2).proposedCorrections
        = some v →
      lookupField
        ((processInvoice rt s now ts invoice).2).normalizedInvoice.extractedData
        f = some v) := by
  refine ⟨rfl, rfl, rfl, rfl, rfl, rfl, ?_, ?_⟩
  · intro f hf
    have hf' : ∀ c ∈ (pipelineOutcome rt s now invoice).corrections,
        c.field ≠ f := hf
    rw [processInvoice_normalizedInvoice]
    show lookupField
      ((pipelineOutcome rt s now invoice).corrections.foldl
        (fun d c => setField d c.field c.proposedValue) invoice.extractedData)
      f = _
    rw [lookupField_foldl_setField, lastProposed_eq_none _ f hf']
  · intro f v hv
    have hv' : lastProposed f (pipelineOutcome rt s now invoice).corrections =
      some v := hv
    rw [processInvoice_normalizedInvoice]
    show lookupField
      ((pipelineOutcome rt s now invoice).corrections.foldl
        (fun d c => setField d c.field c.proposedValue) invoice.extractedData)
      f = _
    rw [lookupField_foldl_setField, hv']

/-- Witness for amended C9: on the conflicting EUR/USD input the currency
field of the normalized invoice holds the last proposed value, USD. -/
theorem C9_normalized_invoice_amended_witness :
    lookupField
      ((processInvoice rt0 s9 0 "" inv9).2).normalizedInvoice.extractedData
      "currency" = some (.vStr "USD") :=
  (C9_normalized_invoice_amended rt0 s9 0 "" inv9).2.2.2.2.2.2.2 "currency"
    (.vStr "USD") (by with_unfolding_all rfl)

/-- Every row of an upserted store carrying the upserted id is the
upserted record. -/
theorem eq_of_mem_saveMemory_id {s : Store} {m x : Memory}
    (hx : x ∈ saveMemory s m) (hid : x.id = m.id) : x = m := by
  unfold saveMemory at hx
  by_cases hany : s.any (fun y => y.id = m.id)
  · rw [if_pos hany] at hx
    obtain ⟨y, hy, hfy⟩ := List.mem_map.mp hx
    by_cases hyid : y.id = m.id
    · rw [if_pos hyid] at hfy
      exact hfy.symm
    · rw [if_neg hyid] at hfy
      rw [← hfy] at hid
      exact absurd hid hyid
  · rw [if_neg hany] at hx
    rcases List.mem_append.mp hx with h | h
    · exfalso
      rw [List.any_eq_true] at hany
      exact hany ⟨x, h, by simp [hid]⟩
    · exact List.mem_singleton.mp h

/-- Every upsert leaves the upserted record in the store. -/
theorem self_mem_saveMemory (s : Store) (m : Memory) : m ∈ saveMemory s m := by
  unfold saveMemory
  by_cases hany : s.any (fun y => y.id = m.id)
  · rw [if_pos hany]
    rw [List.any_eq_true] at hany
    obtain ⟨y, hy, hyid⟩ := hany
    exact List.mem_map.mpr ⟨y, hy, by rw [if_pos (of_decide_eq_true hyid)]⟩
  · rw [if_neg hany]
    simp

/-- C4: a memory driven to the 0.1 floor by `weakenMemory` is stored
inactive, its record remains in the store (logical, not physical,
deletion), and every subsequent recall — any invoice, any filter —
excludes its id. -/
theorem C4_weaken_floor_deactivates (s : Store) (now : ℤ) (memoryId : String)
    (strength : ℚ) (mem : Memory)
    (hfind : (queryMemories s {}).find? (fun m => m.id = memoryId) = some mem)
    (hfloor : mem.confidence - min strength (3/10) ≤ 1/10) :
    (∀ x ∈ MemoryManager.weakenMemory s now memoryId strength,
      x.id = memoryId → x.isActive = false) ∧
    (∃ x ∈ MemoryManager.weakenMemory s now memoryId strength,
      x.id = memoryId) ∧
    (∀ (now2 : ℤ) (invoice : Invoice) (q : MemoryQuery),
      ∀ x ∈ (MemoryManager.recallMemories
        (MemoryManager.weakenMemory s now memoryId strength) now2 invoice q).2,
      x.id ≠ memoryId) := by
  have hid : mem.id = memoryId := by simpa using List.find?_some hfind
  have hkey : ∀ x ∈ MemoryManager.weakenMemory s now memoryId strength,
      x.id = memoryId → x.isActive = false := by
    intro x hx hxid
    unfold MemoryManager.weakenMemory at hx
    dsimp only at hx
    rw [hfind] at hx
    dsimp only at hx
    rw [show max (mem.confidence - min strength (3/10)) (1/10) = 1/10 from
      max_eq_right hfloor, if_pos (le_refl ((1:ℚ)/10))] at hx
    rcases hk : mem.kind with ⟨ts1, act1, pat1⟩ | ⟨fn, op, cv, cr, ac, rc⟩ |
        ⟨sc1, oc1, hf1, sa1⟩ <;>
      rw [hk] at hx <;> dsimp only at hx <;>
      rw [eq_of_mem_saveMemory_id hx (hxid.trans hid.symm)]
  have hexists : ∃ x ∈ MemoryManager.weakenMemory s now memoryId strength,
      x.id = memoryId := by
    unfold MemoryManager.weakenMemory
    dsimp only
    rw [hfind]
    dsimp only
    rw [show max (mem.confidence - min strength (3/10)) (1/10) = 1/10 from
      max_eq_right hfloor, if_pos (le_refl ((1:ℚ)/10))]
    rcases hk : mem.kind with ⟨ts1, act1, pat1⟩ | ⟨fn, op, cv, cr, ac, rc⟩ |
        ⟨sc1, oc1, hf1, sa1⟩ <;> dsimp only <;>
      exact ⟨_, self_mem_saveMemory _ _, hid⟩
  refine ⟨hkey, hexists, ?_⟩
  intro now2 invoice q x hx hxid
  have h2 := mem_queryMemories (mem_recallMemories_snd hx)
  have hact := isActive_of_passesQuery h2.2
  rw [hkey x h2.1 hxid] at hact
  exact absurd hact (by simp)

/-- Witness for C4: weakening the 0.3-confidence memory by the default 0.2
reaches the floor; the stored record is the old snapshot deactivated. -/
theorem C4_weaken_floor_deactivates_witness : m4x.isActive = false :=
  (C4_weaken_floor_deactivates s4 0 "w1" (1/5) m4
    (by with_unfolding_all rfl) (by with_unfolding_all decide)).1 m4x
    (by with_unfolding_all decide) (by with_unfolding_all decide)

/-- Counterexample to C1 as stated: `createVendorMemory` clamps the
caller-supplied initial confidence only from above, so an initial 0.05 is
stored as 0.05, below the 0.1 lower bound. -/
theorem C1_counterexample :
    ((createVendorMemory [] "m1" 0 "V" "trig" act0 "pat" (1/20)).1.map
      (fun m => m.confidence) = [1/20]) ∧ ¬ ((1:ℚ)/10 ≤ 1/20) := by
  constructor
  · with_unfolding_all rfl
  · norm_num

/-- C1 (amended): every create, reinforce, weaken and recall-decay
operation keeps all stored confidences in [0.1, 0.95], provided the
caller-supplied initial confidence is at least 0.1 (the creates clamp
only from above) and the reinforce/weaken strengths are nonnegative. -/
theorem C1_confidence_band_amended (s : Store) (hs : storeConfOK s) :
    (∀ (newId : String) (now : ℤ) (vendor triggerSignal : String)
        (action : VendorAction) (pattern : String) (c : ℚ), 1/10 ≤ c →
      storeConfOK (createVendorMemory s newId now vendor triggerSignal action
        pattern c).1) ∧
    (∀ (newId : String) (now : ℤ) (vendor fieldName originalPattern : String)
        (cv : Value) (reason : String) (c : ℚ), 1/10 ≤ c →
      storeConfOK (createCorrectionMemory s newId now vendor fieldName
        originalPattern cv reason c).1) ∧
    (∀ (newId : String) (now : ℤ) (vendor scenario outcome systemAction : String)
        (hf : Option String) (c : ℚ), 1/10 ≤ c →
      storeConfOK (createResolutionMemory s newId now vendor scenario outcome
        systemAction hf c).1) ∧
    (∀ (now : ℤ) (memoryId : String) (strength : ℚ), 0 ≤ strength →
      storeConfOK (reinforceMemory s now memoryId strength)) ∧
    (∀ (now : ℤ) (memoryId : String) (strength : ℚ), 0 ≤ strength →
      storeConfOK (weakenMemory s now memoryId strength)) ∧
    (∀ (now : ℤ) (invoice : Invoice) (q : MemoryQuery),
      storeConfOK (recallMemories s now invoice q).1) := by
  refine ⟨?_, ?_, ?_, ?_, ?_, ?_⟩
  · intro newId now vendor trig action pat c hc
    exact storeConfOK_saveMemory hs (le_min hc (by norm_num)) (min_le_right _ _)
  · intro newId now vendor fn op cv reason c hc
    exact storeConfOK_saveMemory hs (le_min hc (by norm_num)) (min_le_right _ _)
  · intro newId now vendor sc oc sa hf c hc
    exact storeConfOK_saveMemory hs (le_min hc (by norm_num)) (min_le_right _ _)
  · intro now memoryId strength h0
    unfold reinforceMemory
    dsimp only
    rcases hfind : (queryMemories s {}).find? (fun m => m.id = memoryId)
      with _ | mem
    · rw [hfind]
      exact hs
    · rw [hfind]
      dsimp only
      have hrange := hs mem (mem_queryMemories
        (List.mem_of_find?_eq_some hfind)).1
      have hinc : 0 ≤ min strength (1/10 : ℚ) := le_min h0 (by norm_num)
      have h1 : (1:ℚ)/10 ≤ min (mem.confidence + min strength (1/10)) (19/20) :=
        le_min (le_trans hrange.1 (le_add_of_nonneg_right hinc)) (by norm_num)
      have h2 : min (mem.confidence + min strength (1/10)) (19/20) ≤ 19/20 :=
        min_le_right _ _
      have hs2 := storeConfOK_updateMemoryUsage
        (storeConfOK_updateMemoryConfidence hs h1 h2 memoryId now) memoryId now
      rcases hk : mem.kind with _ | ⟨fn, op, cv, cr, ac, rc⟩ | _ <;> dsimp only
      · exact hs2
      · exact storeConfOK_saveMemory hs2 hrange.1 hrange.2
      · exact hs2
  · intro now memoryId strength h0
    unfold weakenMemory
    dsimp only
    rcases hfind : (queryMemories s {}).find? (fun m => m.id = memoryId)
      with _ | mem
    · rw [hfind]
      exact hs
    · rw [hfind]
      dsimp only
      have hrange := hs mem (mem_queryMemories
        (List.mem_of_find?_eq_some hfind)).1
      have hdec : 0 ≤ min strength (3/10 : ℚ) := le_min h0 (by norm_num)
      have h1 : (1:ℚ)/10 ≤ max (mem.confidence - min strength (3/10)) (1/10) :=
        le_max_right _ _
      have h2 : max (mem.confidence - min strength (3/10)) (1/10) ≤ 19/20 :=
        max_le (le_trans (sub_le_self _ hdec) hrange.2) (by norm_num)
      have hs1 := storeConfOK_updateMemoryConfidence hs h1 h2 memoryId now
      rcases hk : mem.kind with _ | ⟨fn, op, cv, cr, ac, rc⟩ | _ <;> dsimp only
      · split_ifs with hcond
        · exact storeConfOK_saveMemory hs1 hrange.1 hrange.2
        · exact hs1
      · have hs2 := storeConfOK_saveMemory
          (m := { mem with kind := MemKind.correction fn op cv cr ac (rc + 1) })
          hs1 hrange.1 hrange.2
        split_ifs with hcond
        · exact storeConfOK_saveMemory hs2 hrange.1 hrange.2
        · exact hs2
      · split_ifs with hcond
        · exact storeConfOK_saveMemory hs1 hrange.1 hrange.2
        · exact hs1
  · intro now invoice q
    show storeConfOK (applyDecayToUnusedMemories s now
      (queryMemories s (fullQueryOf invoice q)))
    exact storeConfOK_applyDecay hs
      (fun m hm => hs m (mem_queryMemories hm).1) now

/-- Witness for amended C1: creating a vendor memory with initial
confidence 0.5 on the empty store keeps all confidences in band. -/
theorem C1_confidence_band_amended_witness :
    storeConfOK (createVendorMemory [] "m1" 0 "V" "trig" act0 "pat" (1/2)).1 :=
  (C1_confidence_band_amended []
    (fun m hm => absurd hm (List.not_mem_nil m))).1
    "m1" 0 "V" "trig" act0 "pat" (1/2) (by norm_num)

/-- C3 evaluated at the failing input: reinforcing the 0.5-confidence
correction memory with strength 0.1 leaves confidence 0.5, usage count 3
and the old last-used day in the store (the trailing `saveMemory` of the
stale snapshot overwrites the just-written 0.6 and the usage bump), while
approvalCount does become 1; the claimed confidence would be
min(0.5 + min(0.1, 0.1), 0.95) = 0.6 ≠ 0.5. -/
theorem C3_reinforce_correction_clobbers :
    ((reinforceMemory s3 5 "c1" (1/10)).map
      (fun m => (m.confidence, m.usageCount, m.lastUsedAtDay, approvalCountOf m))
      = [(1/2, 3, some 0, 1)]) ∧
    min ((1:ℚ)/2 + min (1/10) (1/10)) (19/20) = 3/5 ∧ ((3:ℚ)/5 ≠ 1/2) := by
  refine ⟨?_, ?_, ?_⟩
  · with_unfolding_all rfl
  · with_unfolding_all decide
  · norm_num

/-- The decay write a memory performs on its own row realises exactly the
decayed confidence. -/
theorem decayStep_self_confidence (now : ℤ) (m : Memory) :
    (decayStep now m m).confidence = decayedConfidence now m := by
  unfold decayStep decayedConfidence
  dsimp only
  by_cases hd : 7 < now - (m.lastUsedAtDay.getD m.createdAtDay)
  · by_cases hne :
      max (m.confidence *
        (19/20 : ℚ) ^ ((now - (m.lastUsedAtDay.getD m.createdAtDay)) - 7).toNat)
        (1/10) ≠ m.confidence
    · rw [if_pos ⟨hd, hne, rfl⟩, if_pos hd]
    · rw [if_neg (fun h => hne h.2.1), if_pos hd]
      push_neg at hne
      exact hne.symm
  · rw [if_neg (fun h => hd h.1), if_neg hd]

/-- Counterexample to C2 as stated: a 0.31-confidence memory unused for 9
days decays to 0.279775 < 0.3, so the claim says recall must exclude it
(and a returned copy would carry the decayed value); the code returns it
carrying the pre-decay 0.31, persisting 0.279775 only to the store. -/
theorem C2_counterexample :
    ((recallMemories s2 9 inv9 {}).2.map (fun m => m.confidence) = [31/100]) ∧
    ((recallMemories s2 9 inv9 {}).1.map (fun m => m.confidence)
      = [11191/40000]) ∧
    decayedConfidence 9 mc2 = 11191/40000 ∧
    ¬ ((3:ℚ)/10 ≤ 11191/40000) := by
  refine ⟨?_, ?_, ?_, ?_⟩
  · with_unfolding_all rfl
  · with_unfolding_all rfl
  · with_unfolding_all rfl
  · with_unfolding_all decide

/-- C2 (amended): `recallMemories` filters and returns the *fetched*
memories with their pre-decay confidences (with the default or any
nonzero minimum, the fetch already filtered, so the filter is the whole
fetched list); the decay rule's result — untouched within the 7-day grace
window, otherwise times 0.95^(days−7) floored at 0.1 — is only persisted
to the store, taking effect in later queries; unfetched rows are
untouched. -/
theorem C2_recall_returns_predecay_amended (s : Store) (now : ℤ)
    (invoice : Invoice) (q : MemoryQuery)
    (hnodup : (s.map (fun m => m.id)).Nodup) :
    ((q.minConfidence.getD (3/10) ≠ 0) →
      (recallMemories s now invoice q).2 =
        queryMemories s (fullQueryOf invoice q)) ∧
    (∀ m ∈ queryMemories s (fullQueryOf invoice q),
      ∀ x ∈ (recallMemories s now invoice q).1, x.id = m.id →
        x.confidence = decayedConfidence now m) ∧
    (∀ x ∈ s, (∀ m ∈ queryMemories s (fullQueryOf invoice q), m.id ≠ x.id) →
      x ∈ (recallMemories s now invoice q).1) := by
  have hstore : (recallMemories s now invoice q).1 =
      s.map (fun x => (queryMemories s (fullQueryOf invoice q)).foldl
        (fun y m => decayStep now m y) x) := by
    show applyDecayToUnusedMemories s now
      (queryMemories s (fullQueryOf invoice q)) = _
    exact applyDecay_eq_map now _ s
  refine ⟨?_, ?_, ?_⟩
  · intro hv
    show (queryMemories s (fullQueryOf invoice q)).filter
      (fun m => decide
        ((if q.minConfidence.getD (3/10) = 0 then (3:ℚ)/10
          else q.minConfidence.getD (3/10)) ≤ m.confidence)) = _
    rw [if_neg hv, List.filter_eq_self]
    intro m hm
    have hp := (mem_queryMemories hm).2
    unfold passesQuery at hp
    simp only [Bool.and_eq_true] at hp
    have h5 := hp.2
    simp only [fullQueryOf] at h5
    rw [Bool.or_eq_true] at h5
    rcases h5 with h | h
    · exact absurd (of_decide_eq_true h) hv
    · exact h
  · intro m hm x hx hxid
    rw [hstore] at hx
    obtain ⟨y, hy, hxy⟩ := List.mem_map.mp hx
    have hyid : y.id = m.id := by
      rw [← foldl_decayStep_id now (queryMemories s (fullQueryOf invoice q)) y,
        hxy, hxid]
    have hym : y = m :=
      List.inj_on_of_nodup_map hnodup hy (mem_queryMemories hm).1 hyid
    subst hym
    obtain ⟨l1, l2, hsplit⟩ := List.append_of_mem hm
    have hqnodup := nodup_ids_queryMemories (q := fullQueryOf invoice q) hnodup
    rw [hsplit, List.map_append, List.map_cons, List.nodup_append] at hqnodup
    obtain ⟨hn1, hn2, hdisj⟩ := hqnodup
    have hl1 : ∀ m' ∈ l1, m'.id ≠ y.id := by
      intro m' hm' heq
      exact hdisj (List.mem_map_of_mem _ hm')
        (heq ▸ List.mem_cons_self _ _)
    have hl2 : ∀ m' ∈ l2, m'.id ≠ y.id := by
      intro m' hm' heq
      exact (List.nodup_cons.mp hn2).1 (heq ▸ List.mem_map_of_mem _ hm')
    rw [hsplit, List.foldl_append, List.foldl_cons,
      foldl_decayStep_skip now hl1] at hxy
    rw [foldl_decayStep_skip now (fun m' hm' => by
      rw [decayStep_id]
      exact hl2 m' hm')] at hxy
    rw [← hxy]
    exact decayStep_self_confidence now y
  · intro x hx hnone
    rw [hstore]
    exact List.mem_map.mpr ⟨x, hx,
      foldl_decayStep_skip now (fun m' hm' => hnone m' hm')⟩

/-- Witness for amended C2: on the decaying 0.31-confidence store the
returned list is exactly the fetched list. -/
theorem C2_recall_returns_predecay_amended_witness :
    (recallMemories s2 9 inv9 {}).2 = queryMemories s2 (fullQueryOf inv9 {}) :=
  (C2_recall_returns_predecay_amended s2 9 inv9 {}
    (by with_unfolding_all decide)).1 (by with_unfolding_all decide)
